import Mathlib

/-!
Verification of the expression/dependency evaluation engine of
sysprog21/Kconfiglib.

The library core (`kconfiglib.py`) is not part of the checked-out sources:
only its test suite (`tests/`), the curses front end (`menuconfig.py`) and
auxiliary scripts are.  The evaluator definitions below are therefore
modelled from the specification, constrained where the specification is
ambiguous by the expectations recorded in the test suite.  The front-end
helpers (`_set_val`, `_change_node`, `_split_expr_info`) are translated from
`menuconfig.py` directly.
-/

namespace Kconfiglib

/-- Declared symbol types (`BOOL`, `TRISTATE`, `STRING`, `INT`, `HEX`,
`UNKNOWN` in the library). -/
inductive SymType where
  | bool
  | tristate
  | string
  | int
  | hex
  | unknown
deriving DecidableEq, Repr

/-- Leaves of an expression tree: one of the three built-in tristate
constant symbols `n`/`m`/`y`, another constant (quoted or number-literal)
symbol carrying its string form, or a reference to a non-constant
symbol/choice identified by an index into the environment. -/
inductive Leaf where
  | const (t : Fin 3)
  | strConst (s : String)
  | sym (i : Nat)
deriving DecidableEq, Repr

/-- Relational operators (`EQUAL`, `UNEQUAL`, `LESS`, `LESS_EQUAL`,
`GREATER`, `GREATER_EQUAL`). -/
inductive CmpOp where
  | eq
  | ne
  | lt
  | le
  | gt
  | ge
deriving DecidableEq, Repr

/-- Expressions: a tagged tree of tristate operations over leaves.
Modelled from the spec: "Expression: either a constant symbol reference, a
non-constant symbol/choice reference, or a tuple (operator, left, right)";
relational operators only ever have symbol (leaf) operands, as produced by
the parser. -/
inductive Expr where
  | leaf (l : Leaf)
  | and (a b : Expr)
  | or (a b : Expr)
  | not (a : Expr)
  | cmp (op : CmpOp) (a b : Leaf)
deriving DecidableEq, Repr

/-- A snapshot of the current symbol state, as consulted by expression
evaluation: each symbol index has a declared type, a current computed
tristate value (only meaningful for bool/tristate symbols) and a current
string value.  Computed tristate values are always in `{0, 1, 2}`. -/
structure Env where
  typ : Nat → SymType
  tri : Nat → Nat
  strv : Nat → String
  tri_le : ∀ i, tri i ≤ 2

/-- The string form of a tristate value (`TRI_TO_STR`). -/
def TRI_TO_STR : Nat → String
  | 0 => "n"
  | 1 => "m"
  | 2 => "y"
  | _ => ""

/-- Value of a single decimal or hexadecimal digit character. -/
def digitVal (base : Nat) (c : Char) : Option Nat :=
  if c.isDigit then
    if c.toNat - 48 < base then some (c.toNat - 48) else none
  else if base = 16 ∧ 'a' ≤ c ∧ c ≤ 'f' then some (c.toNat - 87)
  else if base = 16 ∧ 'A' ≤ c ∧ c ≤ 'F' then some (c.toNat - 55)
  else none

/-- Parse a non-empty digit string in the given base. -/
def parseDigits (base : Nat) : List Char → Option Nat → Option Nat
  | [], acc => acc
  | c :: cs, acc =>
    match digitVal base c, acc with
    | some d, some a => parseDigits base cs (some (a * base + d))
    | some d, none => parseDigits base cs (some d)
    | none, _ => none

/-- Parse an optionally-signed integer in the given base; a `0x`/`0X`
tag is accepted in base 16 (mirroring Python `int(s, 16)`). -/
def parseNum (base : Nat) (s : String) : Option Int :=
  let core : List Char → Option Nat := fun cs =>
    match base, cs with
    | 16, '0' :: 'x' :: rest => parseDigits 16 rest none
    | 16, '0' :: 'X' :: rest => parseDigits 16 rest none
    | _, rest => parseDigits base rest none
  match s.data with
  | '-' :: rest => (core rest).map (fun v => -(v : Int))
  | rest => (core rest).map (fun v => (v : Int))

/-- Parse with the base chosen from the literal's form: `0x`-tagged
strings are hexadecimal, everything else decimal (mirroring Python
`int(s, 0)` as used for constants and undefined symbols). -/
def parseAuto (s : String) : Option Int :=
  if s.startsWith "0x" ∨ s.startsWith "0X" ∨
     s.startsWith "-0x" ∨ s.startsWith "-0X" then parseNum 16 s
  else parseNum 10 s

/-- Value of a leaf in a boolean (tristate) context.  Modelled from the
spec: constants `n`/`m`/`y` are `0`/`1`/`2`; a reference to a bool or
tristate symbol is its current computed tri-value; a symbol of
string/int/hex/unknown type, or a non-tristate constant literal, always
evaluates to `0` (n) in a boolean context. -/
def leafValue (env : Env) : Leaf → Nat
  | .const t => t.val
  | .strConst _ => 0
  | .sym i =>
    match env.typ i with
    | .bool => env.tri i
    | .tristate => env.tri i
    | _ => 0

/-- String form of a leaf, as used by the relational operators; tristate
symbols contribute their tri-value coerced to `"n"`/`"m"`/`"y"`. -/
def leafString (env : Env) : Leaf → String
  | .const t => TRI_TO_STR t.val
  | .strConst s => s
  | .sym i =>
    match env.typ i with
    | .bool => TRI_TO_STR (env.tri i)
    | .tristate => TRI_TO_STR (env.tri i)
    | _ => env.strv i

/-- Numeric reading of a leaf, when one exists: bool/tristate symbols read
as their tri-value, int/hex symbols parse their string value in their
declared base, constants and other symbols parse in a base chosen from the
literal's form. -/
def leafNum (env : Env) : Leaf → Option Int
  | .const t => some (t.val : Int)
  | .strConst s => parseAuto s
  | .sym i =>
    match env.typ i with
    | .bool => some (env.tri i : Int)
    | .tristate => some (env.tri i : Int)
    | .int => parseNum 10 (env.strv i)
    | .hex => parseNum 16 (env.strv i)
    | _ => parseAuto (env.strv i)

/-- Outcome of a relational operator on two integers: `y` (2) or `n` (0). -/
def cmpNums (op : CmpOp) (a b : Int) : Nat :=
  match op with
  | .eq => if a = b then 2 else 0
  | .ne => if a ≠ b then 2 else 0
  | .lt => if a < b then 2 else 0
  | .le => if a ≤ b then 2 else 0
  | .gt => if b < a then 2 else 0
  | .ge => if b ≤ a then 2 else 0

/-- Outcome of a relational operator on two strings, compared
lexicographically. -/
def cmpStrs (op : CmpOp) (a b : String) : Nat :=
  match op with
  | .eq => if a = b then 2 else 0
  | .ne => if a ≠ b then 2 else 0
  | .lt => if a < b then 2 else 0
  | .le => if a < b ∨ a = b then 2 else 0
  | .gt => if b < a then 2 else 0
  | .ge => if b < a ∨ a = b then 2 else 0

/-- Whether a leaf is a string-typed symbol reference. -/
def leafIsStringTyped (env : Env) : Leaf → Bool
  | .sym i => env.typ i = SymType.string
  | _ => false

/-- Relational operators compare the two sides' string values: two
string-typed symbols compare lexicographically; otherwise, if both sides
read as numbers they compare numerically, with a lexicographic
string-comparison fallback. -/
def cmpValue (env : Env) (op : CmpOp) (a b : Leaf) : Nat :=
  if leafIsStringTyped env a ∧ leafIsStringTyped env b then
    cmpStrs op (leafString env a) (leafString env b)
  else
    match leafNum env a, leafNum env b with
    | some x, some y => cmpNums op x y
    | _, _ => cmpStrs op (leafString env a) (leafString env b)

/-- `expr_value`: tristate evaluation of an expression under a symbol
state snapshot.  `AND` is the minimum and `OR` the maximum of the operand
values (the evaluator short-circuits the `n` case of `AND` and the `y`
case of `OR`), `NOT` is `2 - value`. -/
def expr_value (env : Env) : Expr → Nat
  | .leaf l => leafValue env l
  | .and a b =>
    let v1 := expr_value env a
    if v1 = 0 then 0 else min v1 (expr_value env b)
  | .or a b =>
    let v1 := expr_value env a
    if v1 = 2 then 2 else max v1 (expr_value env b)
  | .not a => 2 - expr_value env a
  | .cmp op a b => cmpValue env op a b

/-- Modelled from the spec: the parser implements "m clamped to n if the
module-support symbol is not enabled" by rewriting the source token `m`
into `m && MODULES` at parse time, where `MODULES` is the designated
module-support symbol. -/
def mParsed (modules : Nat) : Expr :=
  .and (.leaf (.const 1)) (.leaf (.sym modules))

lemma cmpNums_le_two (op : CmpOp) (a b : Int) : cmpNums op a b ≤ 2 := by
  cases op <;> simp only [cmpNums] <;> split <;> omega

lemma cmpStrs_le_two (op : CmpOp) (a b : String) : cmpStrs op a b ≤ 2 := by
  cases op <;> simp only [cmpStrs] <;> split <;> omega

lemma cmpValue_le_two (env : Env) (op : CmpOp) (a b : Leaf) :
    cmpValue env op a b ≤ 2 := by
  unfold cmpValue
  split
  · exact cmpStrs_le_two op _ _
  · split
    · exact cmpNums_le_two op _ _
    · exact cmpStrs_le_two op _ _

lemma leafValue_le_two (env : Env) (l : Leaf) : leafValue env l ≤ 2 := by
  cases l with
  | const t => exact Nat.le_of_lt_succ t.isLt
  | strConst s => exact Nat.zero_le 2
  | sym i =>
    simp only [leafValue]
    split
    · exact env.tri_le i
    · exact env.tri_le i
    · exact Nat.zero_le 2

/-- Every expression evaluates to a tristate value. -/
lemma expr_value_le_two (env : Env) (e : Expr) : expr_value env e ≤ 2 := by
  induction e with
  | leaf l => exact leafValue_le_two env l
  | and a b iha ihb =>
    simp only [expr_value]
    split
    · omega
    · exact le_trans (Nat.min_le_left _ _) iha
  | or a b iha ihb =>
    simp only [expr_value]
    split
    · omega
    · exact Nat.max_le.2 ⟨iha, ihb⟩
  | not a ih => simp only [expr_value]; omega
  | cmp op a b => exact cmpValue_le_two env op a b

/-- `AND` evaluates to the minimum of its operands' values. -/
lemma expr_value_and (env : Env) (a b : Expr) :
    expr_value env (.and a b) = min (expr_value env a) (expr_value env b) := by
  simp only [expr_value]
  split
  · omega
  · rfl

/-- `OR` evaluates to the maximum of its operands' values. -/
lemma expr_value_or (env : Env) (a b : Expr) :
    expr_value env (.or a b) = max (expr_value env a) (expr_value env b) := by
  simp only [expr_value]
  split
  · have := expr_value_le_two env b
    omega
  · rfl

lemma expr_value_not (env : Env) (a : Expr) :
    expr_value env (.not a) = 2 - expr_value env a := rfl

/-- C1: for every expression, tristate evaluation satisfies: `AND(a,b)` is
`min(eval a, eval b)`, `OR(a,b)` is `max(eval a, eval b)`, `NOT(a)` is
`2 - eval a`; the constants `n`/`m`/`y` evaluate to `0`/`1`/`2`; a
reference to a symbol of string/int/hex/unknown type, or a non-tristate
constant literal, evaluates to `0` in a boolean context; and when the
designated module-support symbol is disabled, the parsed constant `m` is
clamped from `1` to `0`. -/
theorem expr_value_spec (env : Env) :
    (∀ a b, expr_value env (.and a b) =
      min (expr_value env a) (expr_value env b)) ∧
    (∀ a b, expr_value env (.or a b) =
      max (expr_value env a) (expr_value env b)) ∧
    (∀ a, expr_value env (.not a) = 2 - expr_value env a) ∧
    (∀ t : Fin 3, expr_value env (.leaf (.const t)) = t.val) ∧
    (∀ s, expr_value env (.leaf (.strConst s)) = 0) ∧
    (∀ i, (env.typ i = .string ∨ env.typ i = .int ∨ env.typ i = .hex ∨
           env.typ i = .unknown) →
      expr_value env (.leaf (.sym i)) = 0) ∧
    (∀ modules, env.tri modules = 0 →
      expr_value env (mParsed modules) = 0) := by
  refine ⟨expr_value_and env, expr_value_or env, fun a => rfl,
    fun t => rfl, fun s => rfl, ?_, ?_⟩
  · intro i h
    simp only [expr_value, leafValue]
    rcases h with h | h | h | h <;> rw [h]
  · intro modules h
    rw [mParsed, expr_value_and]
    simp only [expr_value, leafValue]
    cases htyp : env.typ modules <;> simp [htyp, h]

/-- Concrete environment used by witnesses: symbol 0 is tristate with
value n, every other symbol is string-typed. -/
def env0 : Env :=
  ⟨fun i => if i = 0 then .tristate else .string,
   fun _ => 0, fun _ => "", fun _ => Nat.zero_le 2⟩

/-- Witness for C1 at a concrete environment: a string-typed symbol
reference evaluates to n, and the parsed `m` constant is clamped to n when
the module-support symbol (index 0) evaluates to n. -/
theorem expr_value_spec_witness :
    expr_value env0 (.leaf (.sym 1)) = 0 ∧ expr_value env0 (mParsed 0) = 0 :=
  ⟨(expr_value_spec env0).2.2.2.2.2.1 1 (Or.inl rfl),
   (expr_value_spec env0).2.2.2.2.2.2 0 rfl⟩

/-! ## split_expr -/

/-- The two tristate connectives `AND` and `OR`, as arguments of
`split_expr`. -/
inductive BOp where
  | and
  | or
deriving DecidableEq, Repr

/-- Build the operator node for a connective. -/
def BOp.apply : BOp → Expr → Expr → Expr
  | .and, a, b => .and a b
  | .or, a, b => .or a b

/-- `split_expr(expr, op)`: decompose a tree into the flat list of
top-level operands joined by `op`, recursing through same-operator nodes
and stopping at the other operator or a leaf; order matches the
left-to-right syntactic order of the original combination. -/
def split_expr : Expr → BOp → List Expr
  | .and a b, .and => split_expr a .and ++ split_expr b .and
  | .or a b, .or => split_expr a .or ++ split_expr b .or
  | e, _ => [e]

/-- Rejoin a list of operands with `OR` (the empty list is the constant
`n`, the identity of `OR`). -/
def join_or : List Expr → Expr
  | [] => .leaf (.const 0)
  | [e] => e
  | e :: f :: fs => .or e (join_or (f :: fs))

lemma split_expr_ne_nil (e : Expr) (op : BOp) : split_expr e op ≠ [] := by
  induction e with
  | and a b iha ihb =>
    cases op with
    | and => exact fun h => iha (List.append_eq_nil.1 h).1
    | or => simp [split_expr]
  | or a b iha ihb =>
    cases op with
    | or => exact fun h => iha (List.append_eq_nil.1 h).1
    | and => simp [split_expr]
  | leaf l => cases op <;> simp [split_expr]
  | not a ih => cases op <;> simp [split_expr]
  | cmp o a b => cases op <;> simp [split_expr]

lemma split_expr_apply (op : BOp) (a b : Expr) :
    split_expr (op.apply a b) op = split_expr a op ++ split_expr b op := by
  cases op <;> rfl

lemma split_expr_stops (e : Expr) (op : BOp)
    (h : ∀ a b, e ≠ op.apply a b) : split_expr e op = [e] := by
  cases e <;> cases op <;> first
    | rfl
    | exact absurd rfl (h _ _)

lemma join_or_cons (env : Env) (e f : Expr) (fs : List Expr) :
    expr_value env (join_or (e :: f :: fs)) =
      max (expr_value env e) (expr_value env (join_or (f :: fs))) := by
  rw [show join_or (e :: f :: fs) = .or e (join_or (f :: fs)) from rfl,
    expr_value_or]

lemma join_or_append (env : Env) (l₁ l₂ : List Expr)
    (h₁ : l₁ ≠ []) (h₂ : l₂ ≠ []) :
    expr_value env (join_or (l₁ ++ l₂)) =
      max (expr_value env (join_or l₁)) (expr_value env (join_or l₂)) := by
  induction l₁ with
  | nil => exact absurd rfl h₁
  | cons e es ih =>
    cases es with
    | nil =>
      cases l₂ with
      | nil => exact absurd rfl h₂
      | cons f fs => simpa [join_or] using join_or_cons env e f fs
    | cons f fs =>
      simp only [List.cons_append] at ih ⊢
      rw [join_or_cons env e f (fs ++ l₂), join_or_cons env e f fs,
        ih (by simp), Nat.max_assoc]

/-- Splitting by `OR` and rejoining with `OR` is a semantic round trip. -/
lemma join_or_split (env : Env) (e : Expr) :
    expr_value env (join_or (split_expr e .or)) = expr_value env e := by
  induction e with
  | or a b iha ihb =>
    rw [show split_expr (.or a b) .or = split_expr a .or ++ split_expr b .or
          from rfl,
      join_or_append env _ _ (split_expr_ne_nil a .or) (split_expr_ne_nil b .or),
      iha, ihb, expr_value_or]
  | and a b iha ihb => rfl
  | leaf l => rfl
  | not a ih => rfl
  | cmp op a b => rfl

/-- An operand returned by `split_expr` is never itself a node of the
operator that was split on. -/
lemma split_expr_operands (e : Expr) (op : BOp) :
    ∀ x ∈ split_expr e op, ∀ a b, x ≠ op.apply a b := by
  induction e with
  | and a b iha ihb =>
    cases op with
    | and =>
      intro x hx
      rcases List.mem_append.1 hx with h | h
      · exact iha x h
      · exact ihb x h
    | or =>
      intro x hx a' b' hne
      rw [List.mem_singleton.1 hx] at hne
      exact Expr.noConfusion hne
  | or a b iha ihb =>
    cases op with
    | or =>
      intro x hx
      rcases List.mem_append.1 hx with h | h
      · exact iha x h
      · exact ihb x h
    | and =>
      intro x hx a' b' hne
      rw [List.mem_singleton.1 hx] at hne
      exact Expr.noConfusion hne
  | leaf l =>
    intro x hx a' b' hne
    cases op <;> rw [List.mem_singleton.1 hx] at hne <;>
      exact Expr.noConfusion hne
  | not a ih =>
    intro x hx a' b' hne
    cases op <;> rw [List.mem_singleton.1 hx] at hne <;>
      exact Expr.noConfusion hne
  | cmp o a b =>
    intro x hx a' b' hne
    cases op <;> rw [List.mem_singleton.1 hx] at hne <;>
      exact Expr.noConfusion hne

/-- C5: `split_expr(E, op)` returns the flat list of `E`'s top-level
operands joined by `op` in left-to-right syntactic order — it recurses
through same-operator nodes (`split(op.apply a b) = split a ++ split b`),
stops at the other operator or a leaf (returning the singleton), and no
returned operand is itself an `op` node — and rejoining `split_expr(E, OR)`
with `OR` evaluates equal to `E` under every symbol-value snapshot. -/
theorem split_expr_spec :
    (∀ (op : BOp) (a b : Expr),
      split_expr (op.apply a b) op = split_expr a op ++ split_expr b op) ∧
    (∀ (op : BOp) (e : Expr), (∀ a b, e ≠ op.apply a b) →
      split_expr e op = [e]) ∧
    (∀ (op : BOp) (e : Expr), ∀ x ∈ split_expr e op, ∀ a b,
      x ≠ op.apply a b) ∧
    (∀ (env : Env) (e : Expr),
      expr_value env (join_or (split_expr e .or)) = expr_value env e) :=
  ⟨split_expr_apply, fun op e => split_expr_stops e op,
   fun op e => split_expr_operands e op, join_or_split⟩

/-- Witness for C5 at the concrete expression `(A || B) || (A && B)`:
splitting by `OR` yields the three operands in order and rejoining
evaluates equally under `env0`. -/
theorem split_expr_spec_witness :
    split_expr (.or (.or (.leaf (.sym 0)) (.leaf (.sym 1)))
        (.and (.leaf (.sym 0)) (.leaf (.sym 1)))) .or =
      [Expr.leaf (.sym 0), Expr.leaf (.sym 1),
       Expr.and (.leaf (.sym 0)) (.leaf (.sym 1))] ∧
    split_expr (.and (.leaf (.sym 0)) (.leaf (.sym 1))) .or =
      [Expr.and (.leaf (.sym 0)) (.leaf (.sym 1))] ∧
    expr_value env0 (join_or (split_expr
        (.or (.or (.leaf (.sym 0)) (.leaf (.sym 1)))
          (.and (.leaf (.sym 0)) (.leaf (.sym 1)))) .or)) =
      expr_value env0 (.or (.or (.leaf (.sym 0)) (.leaf (.sym 1)))
        (.and (.leaf (.sym 0)) (.leaf (.sym 1)))) :=
  ⟨rfl,
   split_expr_spec.2.1 .or (.and (.leaf (.sym 0)) (.leaf (.sym 1)))
     (fun a b h => Expr.noConfusion h),
   split_expr_spec.2.2.2 env0 _⟩

/-! ## Direct dependency computation -/

/-- The constant-`y` expression. -/
def eY : Expr := .leaf (.const 2)

/-- The constant-`n` expression. -/
def eN : Expr := .leaf (.const 0)

/-- Simplifying `AND` constructor: `y` is dropped, `n` absorbs (the
library's `_make_and`, which keeps `direct_dep` trees free of redundant
constants so that a single undecorated definition is literally `y`). -/
def make_and (a b : Expr) : Expr :=
  if a = eY then b
  else if b = eY then a
  else if a = eN ∨ b = eN then eN
  else .and a b

/-- Simplifying `OR` constructor (the library's `_make_or`). -/
def make_or (a b : Expr) : Expr :=
  if a = eN then b
  else if b = eN then a
  else if a = eY ∨ b = eY then eY
  else .or a b

/-- One `depends on` clause at a definition location: the dependency
expression, with an optional trailing `if COND` qualifier. -/
structure DepClause where
  expr : Expr
  cond : Option Expr
deriving DecidableEq, Repr

/-- One defining location of a symbol or choice: its `depends on` clauses
in source order, and the structural dependency inherited from the
enclosing menu/choice/if nesting (`y` for an undecorated location). -/
structure DefLoc where
  clauses : List DepClause
  inherited : Expr
deriving DecidableEq, Repr

/-- Rewrite of a single clause: `EXPR if COND` becomes
`OR(NOT(COND), EXPR)`; an unqualified clause is itself. -/
def clauseDep : DepClause → Expr
  | ⟨e, none⟩ => e
  | ⟨e, some c⟩ => .or (.not c) e

/-- Effective dependency of one defining location: the `AND` of the
inherited structural dependency with all (rewritten) `depends on` clauses
at that location, in order. -/
def locDep (loc : DefLoc) : Expr :=
  loc.clauses.foldl (fun acc cl => make_and acc (clauseDep cl)) loc.inherited

/-- `direct_dep`: the `OR` across all defining locations of the
per-location effective dependency, starting from `n` (the identity). -/
def direct_dep (locs : List DefLoc) : Expr :=
  locs.foldl (fun acc l => make_or acc (locDep l)) eN

lemma expr_value_make_and (env : Env) (a b : Expr) :
    expr_value env (make_and a b) =
      min (expr_value env a) (expr_value env b) := by
  unfold make_and
  split
  · subst a
    have := expr_value_le_two env b
    simp only [eY, expr_value, leafValue]
    omega
  · split
    · subst b
      have := expr_value_le_two env a
      simp only [eY, expr_value, leafValue]
      omega
    · split
      · rcases ‹a = eN ∨ b = eN› with h | h <;> subst h <;>
          simp only [eN, expr_value, leafValue] <;> omega
      · exact expr_value_and env a b

lemma expr_value_make_or (env : Env) (a b : Expr) :
    expr_value env (make_or a b) =
      max (expr_value env a) (expr_value env b) := by
  unfold make_or
  split
  · subst a
    simp only [eN, expr_value, leafValue]
    omega
  · split
    · subst b
      simp only [eN, expr_value, leafValue]
      omega
    · split
      · rcases ‹a = eY ∨ b = eY› with h | h <;> subst h <;>
          simp only [eY, expr_value, leafValue] <;>
          [skip; have := expr_value_le_two env a] <;>
          [have := expr_value_le_two env b; skip] <;> omega
      · exact expr_value_or env a b

lemma expr_value_locDep (env : Env) (loc : DefLoc) :
    expr_value env (locDep loc) =
      loc.clauses.foldl
        (fun acc cl => min acc (expr_value env (clauseDep cl)))
        (expr_value env loc.inherited) := by
  unfold locDep
  generalize loc.inherited = start
  induction loc.clauses generalizing start with
  | nil => rfl
  | cons cl cls ih =>
    simp only [List.foldl_cons, ih, expr_value_make_and]

lemma expr_value_direct_dep (env : Env) (locs : List DefLoc) :
    expr_value env (direct_dep locs) =
      locs.foldl (fun acc l => max acc (expr_value env (locDep l))) 0 := by
  unfold direct_dep
  have : expr_value env eN = 0 := rfl
  rw [← this]
  generalize eN = start
  induction locs generalizing start with
  | nil => rfl
  | cons l ls ih =>
    simp only [List.foldl_cons, ih, expr_value_make_or]

/-- C2: `direct_dep` is the `OR` over the defining locations of the `AND`
of each location's (rewritten) `depends on` clauses with its inherited
structural dependency — semantically, the value of `direct_dep` is the max
over locations of the min over that location's clauses (each `EXPR if
COND` clause read as `OR(NOT(COND), EXPR)`) with the inherited dependency;
a single undecorated definition yields the constant `y`; and for a symbol
declared with `depends on X if Y`, the computed `direct_dep` evaluates
equal to `OR(NOT(Y), X)` under every assignment. -/
theorem direct_dep_spec :
    (∀ (env : Env) (locs : List DefLoc),
      expr_value env (direct_dep locs) =
        locs.foldl (fun acc l =>
          max acc (l.clauses.foldl
            (fun acc' cl => min acc' (expr_value env (clauseDep cl)))
            (expr_value env l.inherited))) 0) ∧
    (∀ cl : DepClause, ∀ c ∈ cl.cond,
      clauseDep cl = .or (.not c) cl.expr) ∧
    direct_dep [⟨[], eY⟩] = eY ∧
    (∀ (env : Env) (x y : Expr),
      expr_value env (direct_dep [⟨[⟨x, some y⟩], eY⟩]) =
        expr_value env (.or (.not y) x)) := by
  refine ⟨?_, ?_, rfl, ?_⟩
  · intro env locs
    rw [expr_value_direct_dep]
    congr 1
    funext acc l
    rw [expr_value_locDep]
  · rintro ⟨e, c⟩ c' hc'
    cases c with
    | none => simp at hc'
    | some c0 =>
      obtain rfl : c0 = c' := by simpa using hc'
      rfl
  · intro env x y
    rw [expr_value_direct_dep]
    simp only [List.foldl_cons, List.foldl_nil, expr_value_locDep,
      expr_value_make_and]
    have h2 : expr_value env eY = 2 := rfl
    have := expr_value_le_two env (.or (.not y) x)
    simp only [clauseDep, h2]
    omega

/-- Witness for C2: a symbol defined once with `depends on X if Y` (symbols
0, 1 standing for `X`, `Y`) has `direct_dep` evaluating equal to
`!Y || X` in the concrete environment `env0`, and a single undecorated
definition yields `y`. -/
theorem direct_dep_spec_witness :
    expr_value env0
        (direct_dep [⟨[⟨.leaf (.sym 0), some (.leaf (.sym 1))⟩], eY⟩]) =
      expr_value env0 (.or (.not (.leaf (.sym 1))) (.leaf (.sym 0))) ∧
    direct_dep [⟨[], eY⟩] = eY :=
  ⟨direct_dep_spec.2.2.2 env0 (.leaf (.sym 0)) (.leaf (.sym 1)),
   direct_dep_spec.2.2.1⟩

/-! ## .config serialization -/

/-- Escaping of one character for a quoted `.config` string value:
backslash-escape `"` and `\`, keep everything else. -/
def escapeChar (c : Char) : List Char :=
  if c = '\\' then ['\\', '\\']
  else if c = '"' then ['\\', '"']
  else [c]

/-- Escape a character list. -/
def escapeList : List Char → List Char
  | [] => []
  | c :: cs => escapeChar c ++ escapeList cs

/-- `escape()`: backslash-escape `"` and `\` in a string. -/
def escape (s : String) : String := ⟨escapeList s.data⟩

/-- Unescape a character list: a backslash before any character is
removed (not just before `"` and `\`); a lone trailing backslash is
kept. -/
def unescapeList : List Char → List Char
  | [] => []
  | c :: cs =>
    if c = '\\' then
      match cs with
      | [] => ['\\']
      | d :: ds => d :: unescapeList ds
    else c :: unescapeList cs

/-- `unescape()`: remove one level of backslash escaping. -/
def unescape (s : String) : String := ⟨unescapeList s.data⟩

lemma unescapeList_escapeList (l : List Char) :
    unescapeList (escapeList l) = l := by
  induction l with
  | nil => rfl
  | cons c cs ih =>
    by_cases hb : c = '\\'
    · subst hb
      simp only [escapeList, escapeChar, if_pos rfl, List.cons_append,
        List.nil_append]
      rw [unescapeList.eq_def]
      simp [ih]
    · by_cases hq : c = '"'
      · subst hq
        simp only [escapeList, escapeChar,
          if_neg (by decide : ¬('"' : Char) = '\\'), if_pos rfl,
          List.cons_append, List.nil_append]
        rw [unescapeList.eq_def]
        simp [ih]
      · simp only [escapeList, escapeChar, if_neg hb, if_neg hq,
          List.cons_append, List.nil_append, List.singleton_append]
        rw [unescapeList.eq_def]
        simp [hb, ih]

lemma unescape_escape (s : String) : unescape (escape s) = s := by
  cases s with
  | mk data => simp [escape, unescape, unescapeList_escapeList]

/-- A recorded per-symbol configuration value: a tristate value for
bool/tristate symbols, or a string form for string/int/hex symbols. -/
inductive EVal where
  | tri (t : Fin 3)
  | str (s : String)
deriving DecidableEq, Repr

/-- One symbol's entry in a written `.config`. -/
structure CEntry where
  name : String
  val : EVal
deriving DecidableEq, Repr

/-- Strip an expected leading segment from a character list. -/
def stripL : List Char → List Char → Option (List Char)
  | [], l => some l
  | _ :: _, [] => none
  | p :: ps, c :: cs => if p = c then stripL ps cs else none

/-- Strip an expected trailing segment from a character list. -/
def stripSfx (s l : List Char) : Option (List Char) :=
  (stripL s.reverse l.reverse).map List.reverse

/-- One line of a written `.config`, as a character list:
`CONFIG_<NAME>=<value>` for set symbols (string values double-quoted with
escaping), `# CONFIG_<NAME> is not set` for n-valued bool/tristate
symbols. -/
def writeLine (e : CEntry) : List Char :=
  match e.val with
  | .tri t =>
    if t.val = 0 then
      ('#' :: ' ' :: "CONFIG_".data) ++ (e.name.data ++ " is not set".data)
    else
      "CONFIG_".data ++ (e.name.data ++ '=' :: (TRI_TO_STR t.val).data)
  | .str s =>
    "CONFIG_".data ++ (e.name.data ++ '=' :: '"' :: (escapeList s.data ++ ['"']))

/-- Parsed value part of an assignment line. -/
def parseVal (name v : List Char) : Option CEntry :=
  if v = ['y'] then some ⟨⟨name⟩, .tri 2⟩
  else if v = ['m'] then some ⟨⟨name⟩, .tri 1⟩
  else if v = ['n'] then some ⟨⟨name⟩, .tri 0⟩
  else
    match v with
    | '"' :: vs =>
      match stripSfx ['"'] vs with
      | some mid => some ⟨⟨name⟩, .str ⟨unescapeList mid⟩⟩
      | none => none
    | _ => none

/-- Parse one `.config` line back into an entry; unrecognized lines give
`none` (the loader records them and skips). -/
def parseLine (l : List Char) : Option CEntry :=
  match stripL ('#' :: ' ' :: "CONFIG_".data) l with
  | some rest =>
    match stripSfx " is not set".data rest with
    | none => none
    | some name => some ⟨⟨name⟩, .tri 0⟩
  | none =>
    match stripL "CONFIG_".data l with
    | none => none
    | some rest =>
      match rest.dropWhile (· ≠ '=') with
      | '=' :: v => parseVal (rest.takeWhile (· ≠ '=')) v
      | _ => none

/-- Write a configuration state: one line per entry. -/
def writeConfig (es : List CEntry) : List (List Char) :=
  es.map writeLine

/-- Load a configuration: parse each line, skipping unrecognized ones. -/
def loadConfig (ls : List (List Char)) : List CEntry :=
  ls.filterMap parseLine

lemma stripL_append (p r : List Char) : stripL p (p ++ r) = some r := by
  induction p with
  | nil => rfl
  | cons c cs ih => simp [stripL, ih]

lemma stripSfx_append (s x : List Char) : stripSfx s (x ++ s) = some x := by
  simp [stripSfx, List.reverse_append, stripL_append]

lemma takeWhile_until_eq (name v : List Char) (h : '=' ∉ name) :
    (name ++ '=' :: v).takeWhile (· ≠ '=') = name := by
  induction name with
  | nil =>
    rw [List.nil_append, List.takeWhile_cons_of_neg (by simp)]
  | cons c cs ih =>
    have hc : c ≠ '=' := fun hc => h (hc ▸ List.mem_cons_self c cs)
    have hcs : '=' ∉ cs := fun hm => h (List.mem_cons_of_mem c hm)
    rw [List.cons_append, List.takeWhile_cons_of_pos (by simp [hc])]
    exact congrArg (List.cons c) (ih hcs)

lemma dropWhile_until_eq (name v : List Char) (h : '=' ∉ name) :
    (name ++ '=' :: v).dropWhile (· ≠ '=') = '=' :: v := by
  induction name with
  | nil =>
    rw [List.nil_append, List.dropWhile_cons_of_neg (by simp)]
  | cons c cs ih =>
    have hc : c ≠ '=' := fun hc => h (hc ▸ List.mem_cons_self c cs)
    have hcs : '=' ∉ cs := fun hm => h (List.mem_cons_of_mem c hm)
    rw [List.cons_append, List.dropWhile_cons_of_pos (by simp [hc])]
    exact ih hcs

lemma parseLine_assign (nd v : List Char) (h : '=' ∉ nd) :
    parseLine ("CONFIG_".data ++ (nd ++ '=' :: v)) = parseVal nd v := by
  have hred : parseLine ("CONFIG_".data ++ (nd ++ '=' :: v)) =
      match ((nd ++ '=' :: v).dropWhile (· ≠ '=')) with
      | '=' :: v' => parseVal ((nd ++ '=' :: v).takeWhile (· ≠ '=')) v'
      | _ => none := by
    rw [parseLine, show stripL ('#' :: ' ' :: "CONFIG_".data)
        ("CONFIG_".data ++ (nd ++ '=' :: v)) = none from rfl,
      stripL_append]
  rw [hred, dropWhile_until_eq nd v h, takeWhile_until_eq nd v h]
  rfl

lemma parseLine_writeLine (e : CEntry) (h : '=' ∉ e.name.data) :
    parseLine (writeLine e) = some e := by
  obtain ⟨⟨nd⟩, val⟩ := e
  cases val with
  | tri t =>
    obtain ⟨tv, hlt⟩ := t
    interval_cases tv
    · have hred : parseLine (('#' :: ' ' :: "CONFIG_".data) ++
          (nd ++ " is not set".data)) =
          (match stripSfx " is not set".data (nd ++ " is not set".data) with
           | none => none
           | some name => some ⟨⟨name⟩, .tri 0⟩) := by
        rw [parseLine, stripL_append]
      have hw : writeLine ⟨⟨nd⟩, .tri ⟨0, hlt⟩⟩ =
          ('#' :: ' ' :: "CONFIG_".data) ++ (nd ++ " is not set".data) := rfl
      rw [hw, hred, stripSfx_append]
      rfl
    · have hw : writeLine ⟨⟨nd⟩, .tri ⟨1, hlt⟩⟩ =
          "CONFIG_".data ++ (nd ++ '=' :: ['m']) := rfl
      rw [hw, parseLine_assign nd _ h]
      rfl
    · have hw : writeLine ⟨⟨nd⟩, .tri ⟨2, hlt⟩⟩ =
          "CONFIG_".data ++ (nd ++ '=' :: ['y']) := rfl
      rw [hw, parseLine_assign nd _ h]
      rfl
  | str s =>
    obtain ⟨sd⟩ := s
    have hred : parseVal nd ('"' :: (escapeList sd ++ ['"'])) =
        match stripSfx ['"'] (escapeList sd ++ ['"']) with
        | some mid => some ⟨⟨nd⟩, .str ⟨unescapeList mid⟩⟩
        | none => none := rfl
    have hw : writeLine ⟨⟨nd⟩, .str ⟨sd⟩⟩ =
        "CONFIG_".data ++ (nd ++ '=' :: '"' :: (escapeList sd ++ ['"'])) := rfl
    rw [hw, parseLine_assign nd _ h, hred, stripSfx_append]
    simp only [unescapeList_escapeList]

lemma loadConfig_writeConfig (es : List CEntry)
    (h : ∀ e ∈ es, '=' ∉ e.name.data) :
    loadConfig (writeConfig es) = es := by
  induction es with
  | nil => rfl
  | cons e es ih =>
    simp only [writeConfig, List.map_cons, loadConfig, List.filterMap_cons,
      parseLine_writeLine e (h e (List.mem_cons_self e es))]
    exact congrArg (List.cons e)
      (ih fun x hx => h x (List.mem_cons_of_mem e hx))

/-- Modelled from the spec (§4.3): the tristate value of a symbol is the
user value clamped by the direct dependency (`min(user, dd)`) when the
symbol is visible and has a user value, the first satisfied default
clamped the same way otherwise, in both cases maxed with the reverse
(select) dependency value. -/
def symCalcValue (dd rev defv vis : Nat) (user : Option Nat) : Nat :=
  let base :=
    match user with
    | some u => if vis ≠ 0 then min u dd else min defv dd
    | none => min defv dd
  max base rev

lemma symCalcValue_fixpoint (dd rev defv vis : Nat) (user : Option Nat) :
    symCalcValue dd rev defv vis
        (some (symCalcValue dd rev defv vis user)) =
      symCalcValue dd rev defv vis user := by
  cases user <;> by_cases hv : vis = 0 <;>
    simp [symCalcValue, hv, Nat.min_def, Nat.max_def] <;>
    split_ifs <;> omega

/-- C6: writing a `.config` and loading it back reproduces the identical
recorded value for every symbol entry: the per-line serialization is
injectively parsed back (tristate entries via `CONFIG_NAME=y/m` and
`# CONFIG_NAME is not set`, string entries via quoting and escaping),
unescape after escape is the identity on every string, and re-assigning a
symbol's computed value as its user value recomputes the same value (so
the reloaded fresh graph evaluates identically). -/
theorem config_roundtrip_spec :
    (∀ s, unescape (escape s) = s) ∧
    (∀ es : List CEntry, (∀ e ∈ es, '=' ∉ e.name.data) →
      loadConfig (writeConfig es) = es) ∧
    (∀ dd rev defv vis user,
      symCalcValue dd rev defv vis
          (some (symCalcValue dd rev defv vis user)) =
        symCalcValue dd rev defv vis user) :=
  ⟨unescape_escape, loadConfig_writeConfig, symCalcValue_fixpoint⟩

/-- Witness for C6: a configuration with a string value containing `"` and
`\`, a y-valued bool and an n-valued bool round-trips exactly. -/
theorem config_roundtrip_spec_witness :
    loadConfig (writeConfig
        [⟨"STRING", .str "\"\\"⟩, ⟨"BOOL", .tri 2⟩, ⟨"OFF", .tri 0⟩]) =
      [⟨"STRING", .str "\"\\"⟩, ⟨"BOOL", .tri 2⟩, ⟨"OFF", .tri 0⟩] :=
  config_roundtrip_spec.2.1 _ (by decide)

/-! ## Lazy cached recomputation -/

/-- Modelled from the spec: the value-dependency graph after loading — each
symbol's computed value is a function of its own user value and the
computed values of the symbols it depends on (through direct_dep, defaults,
selects, implies and ranges).  Loop detection has run, so the graph is
acyclic, witnessed by a rank that strictly decreases along dependency
edges. -/
structure ValGraph where
  deps : Nat → List Nat
  valFn : Nat → Option Nat → List Nat → Nat
  rank : Nat → Nat
  rank_lt : ∀ i j, j ∈ deps i → rank j < rank i

/-- The pure (cache-free) computed value of a symbol from the user-value
assignment, by structural recursion along the acyclic dependency graph. -/
def value (g : ValGraph) (uv : Nat → Option Nat) (i : Nat) : Nat :=
  g.valFn i (uv i) ((g.deps i).attach.map
    (fun (jh : {x // x ∈ g.deps i}) =>
      have : g.rank jh.val < g.rank i := g.rank_lt i jh.val jh.property
      value g uv jh.val))
termination_by g.rank i

/-- `i`'s computed value depends on `t`: `t` is reachable from `i` along
dependency edges. -/
def Reach (g : ValGraph) (i t : Nat) : Prop :=
  Relation.ReflTransGen (fun a b => b ∈ g.deps a) i t

/-- Fuel-bounded reachability test, used by invalidation. -/
def reachB (g : ValGraph) : Nat → Nat → Nat → Bool
  | 0, i, t => i == t
  | fuel+1, i, t => i == t || (g.deps i).any (fun j => reachB g fuel j t)

lemma reachB_mono (g : ValGraph) :
    ∀ fuel fuel' i t, fuel ≤ fuel' → reachB g fuel i t = true →
      reachB g fuel' i t = true := by
  intro fuel
  induction fuel with
  | zero =>
    intro fuel' i t _ h
    simp only [reachB] at h
    cases fuel' <;> simp [reachB, h]
  | succ n ih =>
    intro fuel' i t hle h
    match fuel', hle with
    | Nat.succ m, hle =>
      simp only [reachB, Bool.or_eq_true, List.any_eq_true] at h ⊢
      rcases h with h | ⟨j, hj, hr⟩
      · exact Or.inl h
      · exact Or.inr ⟨j, hj, ih m j t (Nat.le_of_succ_le_succ hle) hr⟩

lemma reachB_of_reach (g : ValGraph) (j t : Nat) (h : Reach g j t) :
    reachB g (g.rank j) j t = true := by
  induction h using Relation.ReflTransGen.head_induction_on with
  | refl => cases hr : g.rank t <;> simp [reachB]
  | head hstep _ ih =>
    rename_i a c _
    have hlt : g.rank c < g.rank a := g.rank_lt a c hstep
    match hra : g.rank a, hlt with
    | Nat.succ m, _ =>
      simp only [reachB, Bool.or_eq_true, List.any_eq_true]
      refine Or.inr ⟨c, hstep, ?_⟩
      exact reachB_mono g (g.rank c) m c t (by omega) ih

lemma reach_of_reachB (g : ValGraph) :
    ∀ fuel j t, reachB g fuel j t = true → Reach g j t := by
  intro fuel
  induction fuel with
  | zero =>
    intro j t h
    simp only [reachB, beq_iff_eq] at h
    exact h ▸ Relation.ReflTransGen.refl
  | succ n ih =>
    intro j t h
    simp only [reachB, Bool.or_eq_true, beq_iff_eq, List.any_eq_true] at h
    rcases h with h | ⟨j', hj', hr⟩
    · exact h ▸ Relation.ReflTransGen.refl
    · exact Relation.ReflTransGen.head hj' (ih j' t hr)

/-- Reachability agrees with the fuel-bounded test at fuel `rank`. -/
lemma reach_iff (g : ValGraph) (j t : Nat) :
    Reach g j t ↔ reachB g (g.rank j) j t = true :=
  ⟨reachB_of_reach g j t, reach_of_reachB g (g.rank j) j t⟩

/-- The computed value reads only user values of symbols it depends on. -/
lemma value_congr (g : ValGraph) (uv uv' : Nat → Option Nat) :
    ∀ N i, g.rank i ≤ N → (∀ t, Reach g i t → uv t = uv' t) →
      value g uv i = value g uv' i := by
  intro N
  induction N with
  | zero =>
    intro i hN h
    rw [value, value]
    have hdeps : g.deps i = [] := by
      rcases hd : g.deps i with _ | ⟨j, js⟩
      · rfl
      · have := g.rank_lt i j (hd ▸ List.mem_cons_self j js)
        omega
    rw [h i Relation.ReflTransGen.refl]
    congr 1
    refine List.map_congr_left ?_
    rintro ⟨j, hj⟩ _
    exact absurd (hdeps ▸ hj) (List.not_mem_nil j)
  | succ N ih =>
    intro i hN h
    rw [value, value]
    rw [h i Relation.ReflTransGen.refl]
    congr 1
    refine List.map_congr_left ?_
    rintro ⟨j, hj⟩ _
    have hrank : g.rank j ≤ N := by
      have := g.rank_lt i j hj
      omega
    exact ih j hrank (fun t ht =>
      h t (Relation.ReflTransGen.head hj ht))

/-- The engine's incremental state: user values plus the per-symbol value
cache (`none` = dirty/never computed). -/
structure CacheState where
  uv : Nat → Option Nat
  cached : Nat → Option Nat

/-- Read a symbol's tri-value: return the cached value if clean, otherwise
recompute lazily and fill the cache. -/
def readVal (g : ValGraph) (s : CacheState) (i : Nat) : Nat × CacheState :=
  match s.cached i with
  | some v => (v, s)
  | none =>
    let v := value g s.uv i
    (v, ⟨s.uv, fun j => if j = i then some v else s.cached j⟩)

/-- Assign a user value: record it and synchronously mark every
transitively dependent cached value (including the symbol itself) dirty;
recomputation happens only at the next read. -/
def assignVal (g : ValGraph) (s : CacheState) (t : Nat) (v : Nat) :
    CacheState :=
  ⟨fun j => if j = t then some v else s.uv j,
   fun j => if reachB g (g.rank j) j t then none else s.cached j⟩

/-- Cache coherence: every clean cached value equals the pure recomputed
value. -/
def CacheOK (g : ValGraph) (s : CacheState) : Prop :=
  ∀ i v, s.cached i = some v → v = value g s.uv i

lemma readVal_fst (g : ValGraph) (s : CacheState) (i : Nat)
    (hok : CacheOK g s) : (readVal g s i).1 = value g s.uv i := by
  unfold readVal
  cases hc : s.cached i with
  | some v => exact hok i v hc
  | none => rfl

lemma readVal_uv (g : ValGraph) (s : CacheState) (i : Nat) :
    (readVal g s i).2.uv = s.uv := by
  unfold readVal
  cases hc : s.cached i <;> rfl

lemma readVal_cacheOK (g : ValGraph) (s : CacheState) (i : Nat)
    (hok : CacheOK g s) : CacheOK g (readVal g s i).2 := by
  unfold readVal
  cases hc : s.cached i with
  | some v => exact hok
  | none =>
    intro j v hj
    simp only at hj
    by_cases hji : j = i
    · subst hji
      rw [if_pos rfl] at hj
      cases hj
      rfl
    · rw [if_neg hji] at hj
      exact hok j v hj

lemma assignVal_cacheOK (g : ValGraph) (s : CacheState) (t : Nat) (v : Nat)
    (hok : CacheOK g s) : CacheOK g (assignVal g s t v) := by
  intro j w hj
  simp only [assignVal] at hj
  by_cases hr : reachB g (g.rank j) j t = true
  · rw [if_pos hr] at hj
    cases hj
  · rw [if_neg hr] at hj
    have hnr : ¬ Reach g j t := fun h => hr ((reach_iff g j t).1 h)
    have : value g s.uv j = value g (assignVal g s t v).uv j := by
      refine value_congr g s.uv _ (g.rank j) j le_rfl ?_
      intro t' ht'
      have : t' ≠ t := fun he => hnr (he ▸ ht')
      simp [assignVal, this]
    exact (hok j w hj).trans this

lemma readVal_idem (g : ValGraph) (s : CacheState) (i : Nat) :
    (readVal g (readVal g s i).2 i).1 = (readVal g s i).1 := by
  cases hc : s.cached i with
  | some v => simp [readVal, hc]
  | none => simp [readVal, hc]

lemma readVal_frame (g : ValGraph) (s : CacheState) (i t v : Nat)
    (h : ¬ Reach g i t) :
    (readVal g (assignVal g s t v) i).1 = (readVal g s i).1 := by
  have hB : ¬ (reachB g (g.rank i) i t = true) := fun hb =>
    h ((reach_iff g i t).2 hb)
  have hval : value g (assignVal g s t v).uv i = value g s.uv i := by
    refine value_congr g _ _ (g.rank i) i le_rfl ?_
    intro t' ht'
    have hne : t' ≠ t := fun he => h (he ▸ ht')
    simp [assignVal, hne]
  have hcache : (assignVal g s t v).cached i = s.cached i := by
    simp [assignVal, hB]
  unfold readVal
  rw [hcache]
  cases hc : s.cached i with
  | some w => rfl
  | none => simpa using hval

lemma assignVal_dirty (g : ValGraph) (s : CacheState) (t v j : Nat)
    (h : Reach g j t) : (assignVal g s t v).cached j = none := by
  simp [assignVal, (reach_iff g j t).1 h]

lemma readVal_after_assign (g : ValGraph) (s : CacheState) (t v j : Nat)
    (h : Reach g j t) :
    (readVal g (assignVal g s t v) j).1 =
      value g (assignVal g s t v).uv j := by
  unfold readVal
  rw [assignVal_dirty g s t v j h]

/-- C4: reading a symbol's tri-value twice with no assignment in between
returns the identical value; assigning to a symbol `t` that `i` does not
depend on (no path from `i` to `t` in the dependency graph) leaves `i`'s
read unchanged; assigning marks every transitively dependent cached value
dirty, so a dependent symbol's next read recomputes against the updated
user values; and under cache coherence a read returns the pure recomputed
value and both operations preserve coherence. -/
theorem cache_spec :
    (∀ (g : ValGraph) (s : CacheState) (i : Nat),
      (readVal g (readVal g s i).2 i).1 = (readVal g s i).1) ∧
    (∀ (g : ValGraph) (s : CacheState) (i t v : Nat), ¬ Reach g i t →
      (readVal g (assignVal g s t v) i).1 = (readVal g s i).1) ∧
    (∀ (g : ValGraph) (s : CacheState) (t v j : Nat), Reach g j t →
      (assignVal g s t v).cached j = none) ∧
    (∀ (g : ValGraph) (s : CacheState) (t v j : Nat), Reach g j t →
      (readVal g (assignVal g s t v) j).1 =
        value g (assignVal g s t v).uv j) ∧
    (∀ (g : ValGraph) (s : CacheState) (i : Nat), CacheOK g s →
      (readVal g s i).1 = value g s.uv i ∧
      CacheOK g (readVal g s i).2) ∧
    (∀ (g : ValGraph) (s : CacheState) (t v : Nat), CacheOK g s →
      CacheOK g (assignVal g s t v)) :=
  ⟨readVal_idem, readVal_frame, assignVal_dirty, readVal_after_assign,
   fun g s i hok => ⟨readVal_fst g s i hok, readVal_cacheOK g s i hok⟩,
   fun g s t v hok => assignVal_cacheOK g s t v hok⟩

/-- Two-symbol dependency graph for witnesses: symbol 1 depends on symbol
0, symbol 0 on nothing. -/
def g2 : ValGraph where
  deps i := if i = 1 then [0] else []
  valFn _ u ds := u.getD 0 + ds.foldl (· + ·) 0
  rank i := i
  rank_lt i j hj := by
    change j ∈ (if i = 1 then [0] else []) at hj
    show j < i
    by_cases hi : i = 1
    · subst hi
      rw [if_pos rfl] at hj
      obtain rfl := List.mem_singleton.1 hj
      omega
    · rw [if_neg hi] at hj
      exact absurd hj (List.not_mem_nil j)

/-- Fresh cache state for witnesses. -/
def s2 : CacheState := ⟨fun _ => none, fun _ => none⟩

/-- Witness for C4 on the concrete two-symbol graph: symbol 0 does not
depend on symbol 1, so assigning 1 leaves 0's read unchanged; symbol 1
depends on 0, so assigning 0 dirties 1's cache; and a read on the
coherent fresh state returns the pure value. -/
theorem cache_spec_witness :
    (¬ Reach g2 0 1 ∧
      (readVal g2 (assignVal g2 s2 1 2) 0).1 = (readVal g2 s2 0).1) ∧
    (Reach g2 1 0 ∧ (assignVal g2 s2 0 2).cached 1 = none) ∧
    (readVal g2 s2 1).1 = value g2 s2.uv 1 := by
  have hnr : ¬ Reach g2 0 1 := fun h =>
    absurd ((reach_iff g2 0 1).1 h) (by decide)
  have hr : Reach g2 1 0 := (reach_iff g2 1 0).2 (by decide)
  have hok : CacheOK g2 s2 := fun i v h => Option.noConfusion h
  exact ⟨⟨hnr, cache_spec.2.1 g2 s2 0 1 2 hnr⟩,
    ⟨hr, cache_spec.2.2.1 g2 s2 0 2 1 hr⟩,
    (cache_spec.2.2.2.2.1 g2 s2 1 hok).1⟩

/-! ## Dependency-loop detection -/

/-- Modelled from the spec: the loop detector's view of the parsed
configuration — items `0 .. n-1` (symbols and choices in declaration
order), each with a name, a defining location and a rendering of its
declaration; directed "depends on the value of" edges; and a marking of
which edges are select-driven rather than direct `depends on` edges.
Every dependency edge points at a defined item. -/
structure DetGraph where
  n : Nat
  deps : Nat → List Nat
  deps_lt : ∀ i j, j ∈ deps i → j < n
  name : Nat → String
  loc : Nat → String
  rendering : Nat → String
  selMark : Nat → Nat → Bool

/-- A dependency edge. -/
def edge (g : DetGraph) (a b : Nat) : Prop := b ∈ g.deps a

/-- The graph has a value-dependency cycle. -/
def HasCycle (g : DetGraph) : Prop :=
  ∃ i, Relation.TransGen (edge g) i i

/-- A concrete cycle, in cycle order: non-empty, consecutive items are
joined by dependency edges, and the last item depends back on the first. -/
def IsCycleList (g : DetGraph) (c : List Nat) : Prop :=
  c ≠ [] ∧ c.Chain' (edge g) ∧
  ∃ a b, c.getLast? = some a ∧ c.head? = some b ∧ edge g a b

/-- Result of the three-coloring DFS: completed with the given black
(done) set, found a cycle, or ran out of fuel (never happens from the top
level, which supplies more fuel than any acyclic path can consume). -/
inductive DfsOut where
  | ok (black : List Nat)
  | cyc (c : List Nat)
  | out
deriving DecidableEq, Repr

/-- DFS from one node, with step fuel (the top level supplies more fuel
than any acyclic path can consume).  `black` is the done set, `path` the
in-progress (gray) stack from the current node's parent back to the DFS
root; hitting a gray node closes a cycle, reported in cycle order.  The
children are processed left to right, threading the done set. -/
def dfsN (g : DetGraph) : Nat → Nat → List Nat → List Nat → DfsOut
  | 0, _, _, _ => .out
  | fuel+1, i, black, path =>
    if i ∈ black then .ok black
    else if i ∈ path then .cyc (i :: (path.takeWhile (· ≠ i)).reverse)
    else
      match (g.deps i).foldl (fun (r : DfsOut) (j : Nat) =>
          match r with
          | DfsOut.ok blk => dfsN g fuel j blk (i :: path)
          | r => r) (DfsOut.ok black) with
      | .ok blk => .ok (i :: blk)
      | r => r

/-- DFS over a list of nodes, threading the black set. -/
def dfsL (g : DetGraph) (fuel : Nat) (js black path : List Nat) : DfsOut :=
  js.foldl (fun (r : DfsOut) (j : Nat) =>
    match r with
    | DfsOut.ok blk => dfsN g fuel j blk path
    | r => r) (DfsOut.ok black)

lemma dfsN_zero (g : DetGraph) (i : Nat) (black path : List Nat) :
    dfsN g 0 i black path = .out := rfl

lemma dfsN_succ (g : DetGraph) (fuel i : Nat) (black path : List Nat) :
    dfsN g (fuel+1) i black path =
      if i ∈ black then .ok black
      else if i ∈ path then .cyc (i :: (path.takeWhile (· ≠ i)).reverse)
      else
        match dfsL g fuel (g.deps i) black (i :: path) with
        | .ok blk => .ok (i :: blk)
        | r => r := rfl

lemma dfsL_nil (g : DetGraph) (fuel : Nat) (black path : List Nat) :
    dfsL g fuel [] black path = .ok black := rfl

lemma foldl_stuck (g : DetGraph) (fuel : Nat) (path : List Nat) :
    ∀ (js : List Nat) (r : DfsOut), (∀ blk, r ≠ .ok blk) →
      js.foldl (fun (r : DfsOut) (j : Nat) =>
        match r with
        | DfsOut.ok blk => dfsN g fuel j blk path
        | r => r) r = r := by
  intro js
  induction js with
  | nil => intro r h; rfl
  | cons j js ih =>
    intro r h
    cases r with
    | ok blk => exact absurd rfl (h blk)
    | cyc c =>
      rw [List.foldl_cons]
      exact ih (.cyc c) h
    | out =>
      rw [List.foldl_cons]
      exact ih .out h

lemma dfsL_cons (g : DetGraph) (fuel j : Nat) (js black path : List Nat) :
    dfsL g fuel (j :: js) black path =
      match dfsN g fuel j black path with
      | .ok blk => dfsL g fuel js blk path
      | r => r := by
  have hstep : dfsL g fuel (j :: js) black path =
      List.foldl (fun (r : DfsOut) (j : Nat) =>
        match r with
        | DfsOut.ok blk => dfsN g fuel j blk path
        | r => r) (dfsN g fuel j black path) js := rfl
  rw [hstep]
  cases hres : dfsN g fuel j black path with
  | ok blk => rfl
  | cyc c =>
    exact foldl_stuck g fuel path js (.cyc c) (fun blk h => DfsOut.noConfusion h)
  | out =>
    exact foldl_stuck g fuel path js .out (fun blk h => DfsOut.noConfusion h)

/-- Run the detector over every defined item.  Returns the cycle (in
cycle order) if one exists. -/
def detect (g : DetGraph) : Option (List Nat) :=
  match dfsL g (g.n + 1) (List.range g.n) [] [] with
  | .cyc c => some c
  | _ => none

/-- One tuple of the dependency-loop report: the item's name, its
defining location, a rendering of its declaration, and whether the cycle
edge leaving this item is select-driven ("select-related
dependencies"). -/
structure ReportEntry where
  name : String
  loc : String
  rendering : String
  viaSelect : Bool
deriving DecidableEq, Repr

/-- The loop report: one entry per cycle item, in cycle order, with the
select annotation computed from the edge to the (cyclically) next item. -/
def mkReport (g : DetGraph) (c : List Nat) : List ReportEntry :=
  (List.range c.length).map (fun k =>
    let i := c.getD k 0
    let j := c.getD ((k + 1) % c.length) 0
    ⟨g.name i, g.loc i, g.rendering i, g.selMark i j⟩)

/-- Loading runs the detector before any value is exposed; a found cycle
is raised as a dependency-loop error carrying the report. -/
def detectLoop (g : DetGraph) : Option (List ReportEntry) :=
  (detect g).map (mkReport g)

/-- Gray-stack wellformedness: distinct defined items. -/
def PathBound (g : DetGraph) (path : List Nat) : Prop :=
  path.Nodup ∧ ∀ x ∈ path, x < g.n

lemma path_len_le (g : DetGraph) (path : List Nat) (h : PathBound g path) :
    path.length ≤ g.n := by
  obtain ⟨hnd, hlt⟩ := h
  have hsub : path.toFinset ⊆ Finset.range g.n := by
    intro x hx
    simp only [List.mem_toFinset] at hx
    exact Finset.mem_range.2 (hlt x hx)
  have hcard := Finset.card_le_card hsub
  rwa [List.toFinset_card_of_nodup hnd, Finset.card_range] at hcard

lemma dfs_ne_out (g : DetGraph) :
    ∀ fuel,
      (∀ i black path, PathBound g path → i < g.n →
        g.n + 1 ≤ fuel + path.length → dfsN g fuel i black path ≠ .out) ∧
      (∀ js black path, PathBound g path → (∀ j ∈ js, j < g.n) →
        g.n + 1 ≤ fuel + path.length → dfsL g fuel js black path ≠ .out) := by
  intro fuel
  induction fuel with
  | zero =>
    constructor
    · intro i black path hpb _ hle
      have := path_len_le g path hpb
      exact absurd hle (by omega)
    · intro js black path hpb _ hle
      have := path_len_le g path hpb
      exact absurd hle (by omega)
  | succ fuel ih =>
    obtain ⟨_, ihL⟩ := ih
    have hN : ∀ i black path, PathBound g path → i < g.n →
        g.n + 1 ≤ (fuel + 1) + path.length →
        dfsN g (fuel + 1) i black path ≠ .out := by
      intro i black path hpb hi hle
      rw [dfsN_succ]
      by_cases hb : i ∈ black
      · simp [hb]
      · by_cases hp : i ∈ path
        · simp [hb, hp]
        · rw [if_neg hb, if_neg hp]
          have hpb' : PathBound g (i :: path) := by
            refine ⟨List.nodup_cons.2 ⟨hp, hpb.1⟩, ?_⟩
            intro x hx
            rcases List.mem_cons.1 hx with rfl | hx
            · exact hi
            · exact hpb.2 x hx
          have hle' : g.n + 1 ≤ fuel + (i :: path).length := by
            simp only [List.length_cons]
            omega
          have hdeps : ∀ j ∈ g.deps i, j < g.n := fun j hj => g.deps_lt i j hj
          have hout := ihL (g.deps i) black (i :: path) hpb' hdeps hle'
          cases hres : dfsL g fuel (g.deps i) black (i :: path) with
          | ok blk => simp
          | cyc c => simp
          | out => exact absurd hres hout
    refine ⟨hN, ?_⟩
    intro js
    induction js with
    | nil =>
      intro black path hpb hjs hle
      rw [dfsL_nil]
      exact fun h => DfsOut.noConfusion h
    | cons j js ihjs =>
      intro black path hpb hjs hle
      rw [dfsL_cons]
      cases hres : dfsN g (fuel + 1) j black path with
      | ok blk =>
        exact ihjs blk path hpb
          (fun x hx => hjs x (List.mem_cons_of_mem _ hx)) hle
      | cyc c => exact fun h => DfsOut.noConfusion h
      | out =>
        exact absurd hres
          (hN j black path hpb (hjs j (List.mem_cons_self j js)) hle)

/-- Invariant tying the gray stack to the node being visited: the stack's
head (the parent) has a dependency edge to the node. -/
def HeadEdge (g : DetGraph) (i : Nat) : List Nat → Prop
  | [] => True
  | p :: _ => edge g p i

lemma dropWhile_head_mem (l : List Nat) (i : Nat) (h : i ∈ l) :
    ∃ rest, l.dropWhile (· ≠ i) = i :: rest := by
  induction l with
  | nil => cases h
  | cons a as ih =>
    by_cases ha : a = i
    · subst ha
      exact ⟨as, by simp [List.dropWhile_cons]⟩
    · have h' : i ∈ as := by
        rcases List.mem_cons.1 h with h0 | h0
        · exact absurd h0.symm ha
        · exact h0
      obtain ⟨rest, hr⟩ := ih h'
      refine ⟨rest, ?_⟩
      rw [List.dropWhile_cons_of_pos (by simp [ha])]
      exact hr

lemma getLastD_concat (a d : Nat) : ∀ l : List Nat, (l ++ [a]).getLastD d = a := by
  intro l
  induction l generalizing d with
  | nil => rfl
  | cons b bs ih =>
    rw [List.cons_append, List.getLastD_cons]
    exact ih b

/-- Hitting a gray node closes a genuine cycle, extracted in cycle
order. -/
lemma cyc_extract (g : DetGraph) (i : Nat) (path : List Nat)
    (hmem : i ∈ path) (hhe : HeadEdge g i path)
    (hch : path.Chain' (fun a b => edge g b a)) :
    IsCycleList g (i :: (path.takeWhile (· ≠ i)).reverse) := by
  obtain ⟨rest, hdrop⟩ := dropWhile_head_mem path i hmem
  have hsplit : path = path.takeWhile (· ≠ i) ++ (i :: rest) := by
    conv_lhs => rw [← List.takeWhile_append_dropWhile (p := (· ≠ i)) (l := path)]
    rw [hdrop]
  set pre := path.takeWhile (· ≠ i) with hpre
  have hcform : i :: pre.reverse = (pre ++ [i]).reverse := by
    rw [List.reverse_append]
    rfl
  have hassoc : pre ++ (i :: rest) = (pre ++ [i]) ++ rest := by
    simp
  have hch2 : ((pre ++ [i]) ++ rest).Chain' (fun a b => edge g b a) := by
    rw [← hassoc, ← hsplit]
    exact hch
  have hchpre : (pre ++ [i]).Chain' (fun a b => edge g b a) :=
    ((List.chain'_append.1 hch2).1)
  refine ⟨by simp, ?_, ?_⟩
  · rw [hcform]
    exact (List.chain'_reverse).2 hchpre
  · refine ⟨(i :: pre.reverse).getLastD 0, (i :: pre.reverse).headD 0,
      rfl, rfl, ?_⟩
    rcases hp : pre with _ | ⟨p, ps⟩
    · have hpath : path = i :: rest := by
        rw [hsplit, hp, List.nil_append]
      have : edge g i i := by
        have := hhe
        rw [hpath] at this
        exact this
      simpa using this
    · have hpath : path = p :: (ps ++ i :: rest) := by
        rw [hsplit, hp, List.cons_append]
      have hpi : edge g p i := by
        have := hhe
        rw [hpath] at this
        exact this
      have hlast : (i :: (p :: ps).reverse).getLastD 0 = p := by
        rw [List.getLastD_cons, List.reverse_cons]
        exact getLastD_concat p i ps.reverse
      rw [hlast]
      simpa using hpi

lemma dfs_cyc_sound (g : DetGraph) :
    ∀ fuel,
      (∀ i black path c, HeadEdge g i path →
        path.Chain' (fun a b => edge g b a) →
        dfsN g fuel i black path = .cyc c → IsCycleList g c) ∧
      (∀ js black path c, (∀ j ∈ js, HeadEdge g j path) →
        path.Chain' (fun a b => edge g b a) →
        dfsL g fuel js black path = .cyc c → IsCycleList g c) := by
  intro fuel
  induction fuel with
  | zero =>
    have hN0 : ∀ i black path c, HeadEdge g i path →
        path.Chain' (fun a b => edge g b a) →
        dfsN g 0 i black path = .cyc c → IsCycleList g c := by
      intro i black path c _ _ h
      rw [dfsN_zero] at h
      cases h
    refine ⟨hN0, ?_⟩
    intro js
    induction js with
    | nil =>
      intro black path c _ _ h
      rw [dfsL_nil] at h
      cases h
    | cons j js ihjs =>
      intro black path c hhe hch h
      rw [dfsL_cons, dfsN_zero] at h
      cases h
  | succ fuel ih =>
    obtain ⟨_, ihL⟩ := ih
    have hN : ∀ i black path c, HeadEdge g i path →
        path.Chain' (fun a b => edge g b a) →
        dfsN g (fuel + 1) i black path = .cyc c → IsCycleList g c := by
      intro i black path c hhe hch h
      rw [dfsN_succ] at h
      by_cases hb : i ∈ black
      · rw [if_pos hb] at h
        cases h
      · rw [if_neg hb] at h
        by_cases hp : i ∈ path
        · rw [if_pos hp] at h
          cases h
          exact cyc_extract g i path hp hhe hch
        · rw [if_neg hp] at h
          have hhe' : ∀ j ∈ g.deps i, HeadEdge g j (i :: path) := by
            intro j hj
            exact hj
          have hch' : (i :: path).Chain' (fun a b => edge g b a) := by
            rw [List.chain'_cons']
            refine ⟨?_, hch⟩
            intro p hpd
            cases hpath : path with
            | nil => rw [hpath] at hpd; cases hpd
            | cons q qs =>
              rw [hpath] at hpd
              cases hpd
              have := hhe
              rw [hpath] at this
              exact this
          cases hres : dfsL g fuel (g.deps i) black (i :: path) with
          | ok blk =>
            rw [hres] at h
            cases h
          | cyc c' =>
            rw [hres] at h
            cases h
            exact ihL (g.deps i) black (i :: path) _ hhe' hch' hres
          | out =>
            rw [hres] at h
            cases h
    refine ⟨hN, ?_⟩
    intro js
    induction js with
    | nil =>
      intro black path c _ _ h
      rw [dfsL_nil] at h
      cases h
    | cons j js ihjs =>
      intro black path c hhe hch h
      rw [dfsL_cons] at h
      cases hres : dfsN g (fuel + 1) j black path with
      | ok blk =>
        rw [hres] at h
        exact ihjs blk path c
          (fun x hx => hhe x (List.mem_cons_of_mem _ hx)) hch h
      | cyc c' =>
        rw [hres] at h
        cases h
        exact hN j black path _ (hhe j (List.mem_cons_self j js)) hch hres
      | out =>
        rw [hres] at h
        cases h

/-- No cycle is reachable from `i`. -/
def Safe (g : DetGraph) (i : Nat) : Prop :=
  ∀ j, Relation.ReflTransGen (edge g) i j → ¬ Relation.TransGen (edge g) j j

lemma dfs_ok_safe (g : DetGraph) :
    ∀ fuel,
      (∀ i black path blk, (∀ b ∈ black, Safe g b) →
        dfsN g fuel i black path = .ok blk →
        (∀ b ∈ blk, Safe g b) ∧ (∀ b ∈ black, b ∈ blk) ∧ i ∈ blk) ∧
      (∀ js black path blk, (∀ b ∈ black, Safe g b) →
        dfsL g fuel js black path = .ok blk →
        (∀ b ∈ blk, Safe g b) ∧ (∀ b ∈ black, b ∈ blk) ∧
          ∀ j ∈ js, j ∈ blk) := by
  intro fuel
  induction fuel with
  | zero =>
    have hN0 : ∀ i black path blk, (∀ b ∈ black, Safe g b) →
        dfsN g 0 i black path = .ok blk →
        (∀ b ∈ blk, Safe g b) ∧ (∀ b ∈ black, b ∈ blk) ∧ i ∈ blk := by
      intro i black path blk _ h
      rw [dfsN_zero] at h
      cases h
    refine ⟨hN0, ?_⟩
    intro js
    induction js with
    | nil =>
      intro black path blk hsafe h
      rw [dfsL_nil] at h
      cases h
      exact ⟨hsafe, fun b hb => hb, fun j hj => absurd hj (List.not_mem_nil j)⟩
    | cons j js ihjs =>
      intro black path blk hsafe h
      rw [dfsL_cons, dfsN_zero] at h
      cases h
  | succ fuel ih =>
    obtain ⟨_, ihL⟩ := ih
    have hN : ∀ i black path blk, (∀ b ∈ black, Safe g b) →
        dfsN g (fuel + 1) i black path = .ok blk →
        (∀ b ∈ blk, Safe g b) ∧ (∀ b ∈ black, b ∈ blk) ∧ i ∈ blk := by
      intro i black path blk hsafe h
      rw [dfsN_succ] at h
      by_cases hb : i ∈ black
      · rw [if_pos hb] at h
        cases h
        exact ⟨hsafe, fun b hb => hb, hb⟩
      · rw [if_neg hb] at h
        by_cases hp : i ∈ path
        · rw [if_pos hp] at h
          cases h
        · rw [if_neg hp] at h
          cases hres : dfsL g fuel (g.deps i) black (i :: path) with
          | ok blk' =>
            rw [hres] at h
            cases h
            obtain ⟨hsafe', hsub', hdeps'⟩ :=
              ihL (g.deps i) black (i :: path) blk' hsafe hres
            have hsafe_i : Safe g i := by
              intro j hreach hcycj
              rcases Relation.ReflTransGen.cases_head hreach with rfl | ⟨k, hik, hkj⟩
              · obtain ⟨k, hik, hki⟩ := (Relation.TransGen.head'_iff).1 hcycj
                exact hsafe' k (hdeps' k hik) _ hki hcycj
              · exact hsafe' k (hdeps' k hik) j hkj hcycj
            refine ⟨?_, ?_, List.mem_cons_self i blk'⟩
            · intro b hbm
              rcases List.mem_cons.1 hbm with rfl | hbm
              · exact hsafe_i
              · exact hsafe' b hbm
            · intro b hbm
              exact List.mem_cons_of_mem i (hsub' b hbm)
          | cyc c =>
            rw [hres] at h
            cases h
          | out =>
            rw [hres] at h
            cases h
    refine ⟨hN, ?_⟩
    intro js
    induction js with
    | nil =>
      intro black path blk hsafe h
      rw [dfsL_nil] at h
      cases h
      exact ⟨hsafe, fun b hb => hb, fun j hj => absurd hj (List.not_mem_nil j)⟩
    | cons j js ihjs =>
      intro black path blk hsafe h
      rw [dfsL_cons] at h
      cases hres : dfsN g (fuel + 1) j black path with
      | ok blk' =>
        rw [hres] at h
        obtain ⟨hsafe1, hsub1, hj1⟩ := hN j black path blk' hsafe hres
        obtain ⟨hsafe2, hsub2, hjs2⟩ := ihjs blk' path blk hsafe1 h
        refine ⟨hsafe2, fun b hb => hsub2 b (hsub1 b hb), ?_⟩
        intro x hx
        rcases List.mem_cons.1 hx with rfl | hx
        · exact hsub2 x hj1
        · exact hjs2 x hx
      | cyc c =>
        rw [hres] at h
        cases h
      | out =>
        rw [hres] at h
        cases h


lemma chain_reach (g : DetGraph) :
    ∀ (l : List Nat) (a : Nat), List.Chain (edge g) a l →
      Relation.ReflTransGen (edge g) a (l.getLastD a) := by
  intro l
  induction l with
  | nil => intro a _; exact Relation.ReflTransGen.refl
  | cons b bs ih =>
    intro a hch
    rw [List.chain_cons] at hch
    rw [List.getLastD_cons]
    exact Relation.ReflTransGen.head hch.1 (ih b hch.2)

lemma cycleList_hasCycle (g : DetGraph) (c : List Nat)
    (h : IsCycleList g c) : HasCycle g := by
  obtain ⟨hne, hch, a, b, hlast, hhead, hedge⟩ := h
  cases c with
  | nil => exact absurd rfl hne
  | cons x l =>
    refine ⟨x, ?_⟩
    have hb : b = x := by
      have : (x :: l).head? = some x := rfl
      rw [this] at hhead
      exact (Option.some.injEq _ _ ▸ hhead).symm
    have ha : a = l.getLastD x := by
      have h2 : (x :: l).getLast? = some (l.getLastD x) := by
        cases l <;> rfl
      rw [h2] at hlast
      exact (Option.some.injEq _ _ ▸ hlast).symm
    have hchain : List.Chain (edge g) x l := hch
    have hreach := chain_reach g l x hchain
    subst ha hb
    exact Relation.TransGen.tail' hreach hedge

lemma dfsL_top_ne_out (g : DetGraph) :
    dfsL g (g.n + 1) (List.range g.n) [] [] ≠ .out :=
  (dfs_ne_out g (g.n + 1)).2 (List.range g.n) [] []
    ⟨List.nodup_nil, fun x hx => absurd hx (List.not_mem_nil x)⟩
    (fun j hj => List.mem_range.1 hj)
    (by simp)

lemma detect_some_sound (g : DetGraph) (c : List Nat)
    (h : detect g = some c) : IsCycleList g c := by
  unfold detect at h
  cases hres : dfsL g (g.n + 1) (List.range g.n) [] [] with
  | ok blk => rw [hres] at h; cases h
  | out => rw [hres] at h; cases h
  | cyc c' =>
    rw [hres] at h
    cases h
    exact (dfs_cyc_sound g (g.n + 1)).2 (List.range g.n) [] [] _
      (fun j _ => trivial) List.chain'_nil hres

lemma detect_none_iff (g : DetGraph) : detect g = none ↔ ¬ HasCycle g := by
  constructor
  · intro h hcyc
    obtain ⟨i, hi⟩ := hcyc
    unfold detect at h
    cases hres : dfsL g (g.n + 1) (List.range g.n) [] [] with
    | cyc c => rw [hres] at h; cases h
    | out => exact dfsL_top_ne_out g hres
    | ok blk =>
      have hi_lt : i < g.n := by
        obtain ⟨k, _, hk2⟩ := (Relation.TransGen.tail'_iff).1 hi
        exact g.deps_lt k i hk2
      obtain ⟨hsafe, _, hall⟩ := (dfs_ok_safe g (g.n + 1)).2
        (List.range g.n) [] [] blk
        (fun b hb => absurd hb (List.not_mem_nil b)) hres
      exact hsafe i (hall i (List.mem_range.2 hi_lt)) i
        Relation.ReflTransGen.refl hi
  · intro h
    cases hd : detect g with
    | none => rfl
    | some c =>
      exact absurd (cycleList_hasCycle g c (detect_some_sound g c hd)) h

/-- Concrete three-item cyclic description: A depends on B, B depends on
C, and C selects A (a select-driven edge back to A). -/
def exG : DetGraph where
  n := 3
  deps i := if i = 0 then [1] else if i = 1 then [2] else if i = 2 then [0] else []
  deps_lt i j hj := by
    by_cases h0 : i = 0
    · simp [h0] at hj
      omega
    · by_cases h1 : i = 1
      · simp [h0, h1] at hj
        omega
      · by_cases h2 : i = 2
        · simp [h0, h1, h2] at hj
          omega
        · simp [h0, h1, h2] at hj
  name i := if i = 0 then "A" else if i = 1 then "B" else "C"
  loc i := if i = 0 then "Kdeploop:1" else if i = 1 then "Kdeploop:5"
    else "Kdeploop:9"
  rendering i := if i = 0 then "config A\n\tbool\n\tdepends on B"
    else if i = 1 then "config B\n\tbool\n\tdepends on C"
    else "config C\n\tbool\n\tselect A"
  selMark i j := i == 2 && j == 0

/-- Acyclic chain description of depth `n`: item `i` depends on item
`i + 1`. -/
def chainG (n : Nat) : DetGraph where
  n := n
  deps i := if i + 1 < n then [i + 1] else []
  deps_lt i j hj := by
    change j ∈ (if i + 1 < n then [i + 1] else []) at hj
    by_cases h : i + 1 < n
    · rw [if_pos h] at hj
      obtain rfl := List.mem_singleton.1 hj
      exact h
    · rw [if_neg h] at hj
      exact absurd hj (List.not_mem_nil j)
  name _ := ""
  loc _ := ""
  rendering _ := ""
  selMark _ _ := false

lemma chainG_acyclic (n : Nat) : ¬ HasCycle (chainG n) := by
  rintro ⟨i, hi⟩
  have hmono : ∀ a b, edge (chainG n) a b → a < b := by
    intro a b hab
    change b ∈ (if a + 1 < n then [a + 1] else []) at hab
    by_cases h : a + 1 < n
    · rw [if_pos h] at hab
      obtain rfl := List.mem_singleton.1 hab
      omega
    · rw [if_neg h] at hab
      exact absurd hab (List.not_mem_nil b)
  have hlt : ∀ a b, Relation.TransGen (edge (chainG n)) a b → a < b := by
    intro a b h
    induction h with
    | single h => exact hmono _ _ h
    | tail _ hbc ih => exact lt_trans ih (hmono _ _ hbc)
  exact absurd (hlt i i hi) (lt_irrefl i)

/-- C3: loading a description whose value-dependency relation is cyclic
raises a dependency-loop error and an acyclic one raises none
(`detectLoop g = none ↔` the graph has no cycle); any reported cycle is a
genuine dependency cycle listed in cycle order, and the report pairs every
cycle item with its defining location and declaration rendering,
annotating select-driven edges; concretely, the three-item cycle
A → B → C → A is reported as A, B, C in cycle order with C's select edge
annotated, while a dependency chain of any depth raises no error. -/
theorem deploop_spec :
    (∀ g : DetGraph, detectLoop g = none ↔ ¬ HasCycle g) ∧
    (∀ (g : DetGraph) (c : List Nat), detect g = some c →
      IsCycleList g c ∧ detectLoop g = some (mkReport g c)) ∧
    detectLoop exG = some
      [⟨"A", "Kdeploop:1", "config A\n\tbool\n\tdepends on B", false⟩,
       ⟨"B", "Kdeploop:5", "config B\n\tbool\n\tdepends on C", false⟩,
       ⟨"C", "Kdeploop:9", "config C\n\tbool\n\tselect A", true⟩] ∧
    (∀ n, detectLoop (chainG n) = none) := by
  refine ⟨?_, ?_, ?_, ?_⟩
  · intro g
    unfold detectLoop
    constructor
    · intro h
      cases hd : detect g with
      | none => exact (detect_none_iff g).1 hd
      | some c => rw [hd] at h; cases h
    · intro h
      rw [(detect_none_iff g).2 h]
      rfl
  · intro g c h
    refine ⟨detect_some_sound g c h, ?_⟩
    unfold detectLoop
    rw [h]
    rfl
  · rfl
  · intro n
    unfold detectLoop
    rw [(detect_none_iff (chainG n)).2 (chainG_acyclic n)]
    rfl

/-- Witness for C3: on the concrete cyclic description the detector
reports the cycle `[A, B, C]`, which is a genuine cycle, with the full
report. -/
theorem deploop_spec_witness :
    IsCycleList exG [0, 1, 2] ∧
    detectLoop exG = some (mkReport exG [0, 1, 2]) :=
  deploop_spec.2.1 exG [0, 1, 2] rfl




/-! ## Value assignment (set_value) -/

/-- A value passed to `set_value`: a tristate integer or a string (the
Python API accepts both). -/
inductive KVal where
  | tri (t : Nat)
  | str (s : String)
deriving DecidableEq, Repr

/-- A symbol's assignment-relevant state: declared type and user value. -/
structure SymState where
  origType : SymType
  userValue : Option KVal
deriving DecidableEq, Repr

/-- `STR_TO_TRI`: the tristate reading of `"n"`/`"m"`/`"y"`. -/
def STR_TO_TRI (s : String) : Option Nat :=
  if s = "n" then some 0
  else if s = "m" then some 1
  else if s = "y" then some 2
  else none

/-- For bool/tristate symbols a string value in `STR_TO_TRI` is first
converted to its tristate integer. -/
def normVal (ty : SymType) (v : KVal) : KVal :=
  match ty, v with
  | .bool, .str s =>
    match STR_TO_TRI s with
    | some t => .tri t
    | none => .str s
  | .tristate, .str s =>
    match STR_TO_TRI s with
    | some t => .tri t
    | none => .str s
  | _, v => v

/-- Modelled from the spec and the test suite: `set_value` validates only
the form of the value against the symbol's type — 0/2 for bool, 0/1/2 for
tristate, any string for string symbols, a decimal-parsing string for int,
a non-negative hex-parsing string for hex (tests/test_symbols.py
`test_user_value`). -/
def validVal (ty : SymType) (v : KVal) : Bool :=
  match ty, v with
  | .bool, .tri t => decide (t = 0 ∨ t = 2)
  | .tristate, .tri t => decide (t ≤ 2)
  | .string, .str _ => true
  | .int, .str s => (parseNum 10 s).isSome
  | .hex, .str s =>
    match parseNum 16 s with
    | some w => decide (0 ≤ w)
    | none => false
  | _, _ => false

/-- `set_value`: record the (normalized) user value if its form is valid
for the type and report success; otherwise report failure and change
nothing. -/
def set_value (st : SymState) (v : KVal) : Bool × SymState :=
  let v' := normVal st.origType v
  if validVal st.origType v' then (true, ⟨st.origType, some v'⟩)
  else (false, st)

/-- Modelled from the spec (§4.3): the set of legal user-assignable
tri-values — consistent with visibility (at least the requested value)
and the select floor (values below the `rev_dep` floor excluded). -/
def assignable (ty : SymType) (vis rev : Nat) : List Nat :=
  (if ty = SymType.bool then [0, 2] else [0, 1, 2]).filter
    (fun v => decide (v ≤ vis) && decide (rev ≤ v))

/-- Counterexample to C7 as stated: a tristate symbol that is visible at
`y` and selected to `y` has assignable set `{y}`, yet assigning the
type-valid value `n` (which is not in the assignable set) returns success
rather than failure (matching `tests/test_semantics.py`
`test_choice_m_mode` and `test_imply_user_values`, where assigning values
outside the assignable set succeeds and the computed value is clamped). -/
theorem set_value_assignable_counterexample :
    (0 : Nat) ∉ assignable .tristate 2 2 ∧
    (set_value ⟨.tristate, some (.tri 2)⟩ (.tri 0)).1 = true := by
  decide

/-- C7 (amended): an assignment call whose value has an invalid form for
the symbol's type (wrong kind of value, `m` for a bool, a malformed or
negative-hex numeric string) returns failure and leaves the symbol's
state — and hence any value computed from it — unchanged, rather than
raising; a well-formed value is accepted even when outside the assignable
set, the computed value being clamped instead. -/
theorem set_value_invalid_spec (st : SymState) (v : KVal)
    (h : validVal st.origType (normVal st.origType v) = false) :
    (set_value st v).1 = false ∧ (set_value st v).2 = st ∧
    ∀ f : SymState → Nat, f (set_value st v).2 = f st := by
  unfold set_value
  simp [h]

/-- Witness for C7: assigning `m` to a bool symbol fails and retains the
prior user value `y`. -/
theorem set_value_invalid_spec_witness :
    (set_value ⟨.bool, some (.tri 2)⟩ (.tri 1)).1 = false ∧
    (set_value ⟨.bool, some (.tri 2)⟩ (.tri 1)).2 =
      ⟨.bool, some (.tri 2)⟩ ∧
    ∀ f : SymState → Nat,
      f (set_value ⟨.bool, some (.tri 2)⟩ (.tri 1)).2 =
        f ⟨.bool, some (.tri 2)⟩ :=
  set_value_invalid_spec ⟨.bool, some (.tri 2)⟩ (.tri 1) (by decide)


/-! ## Choice selection -/

/-- Modelled from the spec (§4.4): the state of one choice consulted by
selection computation — member symbols in declaration order, choice-level
`default` pairs (member, condition) in declaration order, the user's
explicit selection, each member's current visibility, and the choice's
own mode (which selection does not consult). -/
structure ChoiceState where
  members : List Nat
  defaults : List (Nat × Expr)
  userSelection : Option Nat
  vis : Nat → Nat
  mode : Nat

/-- Fallback selection when there is no (visible) user selection: the
first choice-level default whose condition is satisfied and whose symbol
is visible, else the first visible member. -/
def selFallback (env : Env) (ch : ChoiceState) : Option Nat :=
  match ch.defaults.find? (fun d =>
      decide (expr_value env d.2 ≠ 0) && decide (ch.vis d.1 ≠ 0)) with
  | some d => some d.1
  | none => ch.members.find? (fun s => decide (ch.vis s ≠ 0))

/-- Selection computation: whenever the choice has at least one visible
member, pick the explicitly user-selected member if still visible, else
fall back to defaults / first visible member; computed regardless of the
choice's own mode. -/
def selection (env : Env) (ch : ChoiceState) : Option Nat :=
  if ch.members.any (fun s => decide (ch.vis s ≠ 0)) then
    match ch.userSelection with
    | some u =>
      if u ∈ ch.members ∧ ch.vis u ≠ 0 then some u else selFallback env ch
    | none => selFallback env ch
  else none

lemma selFallback_isSome (env : Env) (ch : ChoiceState)
    (h : ∃ s ∈ ch.members, ch.vis s ≠ 0) :
    (selFallback env ch).isSome = true := by
  unfold selFallback
  cases hd : ch.defaults.find? (fun d =>
      decide (expr_value env d.2 ≠ 0) && decide (ch.vis d.1 ≠ 0)) with
  | some d => rfl
  | none =>
    obtain ⟨s, hs, hvs⟩ := h
    have : ∃ x, ch.members.find?
        (fun s => decide (ch.vis s ≠ 0)) = some x := by
      rw [← Option.isSome_iff_exists, List.find?_isSome]
      exact ⟨s, hs, by simpa using hvs⟩
    obtain ⟨x, hx⟩ := this
    rw [hx]
    rfl

/-- C8: whenever a choice has at least one visible member a selection is
computed, independent of the choice's own mode (including mode n), in the
priority order: the user-selected member if still visible, else the first
satisfied choice-level default with a visible symbol (declaration order),
else the first visible member. -/
theorem choice_selection_spec :
    (∀ (env : Env) (mem : List Nat) (defs : List (Nat × Expr))
        (us : Option Nat) (vis : Nat → Nat) (m₁ m₂ : Nat),
      selection env ⟨mem, defs, us, vis, m₁⟩ =
        selection env ⟨mem, defs, us, vis, m₂⟩) ∧
    (∀ (env : Env) (ch : ChoiceState),
      (∃ s ∈ ch.members, ch.vis s ≠ 0) →
      (selection env ch).isSome = true) ∧
    (∀ (env : Env) (ch : ChoiceState) (u : Nat),
      (∃ s ∈ ch.members, ch.vis s ≠ 0) →
      ch.userSelection = some u → u ∈ ch.members → ch.vis u ≠ 0 →
      selection env ch = some u) ∧
    (∀ (env : Env) (ch : ChoiceState),
      (∃ s ∈ ch.members, ch.vis s ≠ 0) →
      (ch.userSelection = none ∨
        ∃ u, ch.userSelection = some u ∧ ¬(u ∈ ch.members ∧ ch.vis u ≠ 0)) →
      selection env ch = selFallback env ch) ∧
    (∀ (env : Env) (ch : ChoiceState) (d : Nat × Expr),
      ch.defaults.find? (fun d =>
        decide (expr_value env d.2 ≠ 0) && decide (ch.vis d.1 ≠ 0)) =
          some d →
      selFallback env ch = some d.1) ∧
    (∀ (env : Env) (ch : ChoiceState),
      ch.defaults.find? (fun d =>
        decide (expr_value env d.2 ≠ 0) && decide (ch.vis d.1 ≠ 0)) = none →
      selFallback env ch =
        ch.members.find? (fun s => decide (ch.vis s ≠ 0))) := by
  have hany : ∀ (ch : ChoiceState), (∃ s ∈ ch.members, ch.vis s ≠ 0) →
      ch.members.any (fun s => decide (ch.vis s ≠ 0)) = true := by
    intro ch ⟨s, hs, hvs⟩
    rw [List.any_eq_true]
    exact ⟨s, hs, by simpa using hvs⟩
  refine ⟨fun env mem defs us vis m₁ m₂ => rfl, ?_, ?_, ?_, ?_, ?_⟩
  · intro env ch h
    unfold selection
    rw [if_pos (hany ch h)]
    cases hu : ch.userSelection with
    | none =>
      simp only []
      exact selFallback_isSome env ch h
    | some u =>
      simp only []
      by_cases hcond : u ∈ ch.members ∧ ch.vis u ≠ 0
      · rw [if_pos hcond]
        rfl
      · rw [if_neg hcond]
        exact selFallback_isSome env ch h
  · intro env ch u h hu hmem hvis
    unfold selection
    rw [if_pos (hany ch h), hu]
    simp only []
    rw [if_pos ⟨hmem, hvis⟩]
  · intro env ch h hcase
    unfold selection
    rw [if_pos (hany ch h)]
    rcases hcase with hn | ⟨u, hu, hnot⟩
    · rw [hn]
    · rw [hu]
      simp only []
      rw [if_neg hnot]
  · intro env ch d hd
    unfold selFallback
    rw [hd]
  · intro env ch hd
    unfold selFallback
    rw [hd]

/-- Witness for C8 on a concrete optional choice in mode n: members 1 and
2 both visible, no user selection and no defaults — the first visible
member (1) is selected even though the mode is n. -/
theorem choice_selection_spec_witness :
    selection env0
        ⟨[1, 2], [], none, (fun s => if s = 1 ∨ s = 2 then 2 else 0), 0⟩ =
      selFallback env0
        ⟨[1, 2], [], none, (fun s => if s = 1 ∨ s = 2 then 2 else 0), 0⟩ ∧
    (selection env0
        ⟨[1, 2], [], none, (fun s => if s = 1 ∨ s = 2 then 2 else 0), 0⟩).isSome
      = true :=
  ⟨choice_selection_spec.2.2.2.1 env0
      ⟨[1, 2], [], none, (fun s => if s = 1 ∨ s = 2 then 2 else 0), 0⟩
      ⟨1, by decide, by norm_num⟩ (Or.inl rfl),
   choice_selection_spec.2.1 env0
      ⟨[1, 2], [], none, (fun s => if s = 1 ∨ s = 2 then 2 else 0), 0⟩
      ⟨1, by decide, by norm_num⟩⟩

/-! ## menuconfig front-end value setting -/

/-- The value argument of `_set_val` in `menuconfig.py`: a tristate
integer or a string. -/
inductive UIVal where
  | tri (t : Nat)
  | str (s : String)
deriving DecidableEq, Repr

/-- UI-relevant view of a symbol or choice: declared type, current string
value, current tri-value and the assignable tuple. -/
structure SCView where
  origType : SymType
  strValue : String
  triValue : Nat
  assignable : List Nat
deriving DecidableEq, Repr

/-- Menu/UI state touched by `_set_val`: the `_conf_changed` flag, a
generation counter standing for the recomputed menu display
(`_update_menu`), and the trace of `set_value` calls made. -/
structure MenuState where
  confChanged : Bool
  menuGen : Nat
  calls : List UIVal
deriving DecidableEq, Repr

/-- The normalization at the top of `_set_val`: tristate integers 0/1/2
are replaced by their string form (`val in TRI_TO_STR`); other values are
kept. -/
def normUI (v : UIVal) : UIVal :=
  match v with
  | .tri t => if t ≤ 2 then .str (TRI_TO_STR t) else .tri t
  | .str s => .str s

/-- The `val != sc.str_value` test of `_set_val`: an integer value never
equals the string value. -/
def uiValNe (v : UIVal) (s : String) : Bool :=
  match v with
  | .tri _ => true
  | .str s' => s' != s

/-- `_set_val` from `menuconfig.py`: normalize the value, and only if it
differs from the symbol's current string value call `set_value`, set
`_conf_changed` and recompute the menu. -/
def ui_set_val (sc : SCView) (st : MenuState) (v : UIVal) : MenuState :=
  let v' := normUI v
  if uiValNe v' sc.strValue then
    ⟨true, st.menuGen + 1, st.calls ++ [v']⟩
  else st

/-- The toggle branch structure of `_change_node` in `menuconfig.py` for
bool/tristate items: with exactly one assignable value the symbol is set
to that value (handling y-mode choice symbols, whose `.assignable` can be
`(2,)` while `.tri_value` is 0); otherwise the value rotates to the next
assignable value after the current one, with wrapping. -/
def change_node (sc : SCView) (st : MenuState) : MenuState :=
  if sc.assignable.length = 1 then
    ui_set_val sc st (.tri (sc.assignable.headD 0))
  else
    let k := sc.assignable.indexOf sc.triValue
    ui_set_val sc st
      (.tri (sc.assignable.getD ((k + 1) % sc.assignable.length) 0))

/-- C10: when the requested value, after normalizing tristate integers to
their string form, equals the current string value, `_set_val` makes no
`set_value` call and leaves the configuration-changed flag and menu state
unchanged; when it differs, `set_value` is called with the normalized
value and the configuration-changed flag is set. -/
theorem set_val_spec (sc : SCView) (st : MenuState) (v : UIVal) :
    (normUI v = .str sc.strValue → ui_set_val sc st v = st) ∧
    (normUI v ≠ .str sc.strValue →
      ui_set_val sc st v = ⟨true, st.menuGen + 1, st.calls ++ [normUI v]⟩) := by
  constructor
  · intro h
    unfold ui_set_val
    rw [h]
    simp [uiValNe]
  · intro h
    unfold ui_set_val
    cases hv : normUI v with
    | tri t => rfl
    | str s =>
      have hne : s ≠ sc.strValue := by
        intro he
        exact h (by rw [hv, he])
      simp [uiValNe, hne]

/-- Witness for C10: requesting the tristate value 2 on a symbol whose
current string value is `"y"` is a no-op; requesting 0 on it calls
`set_value "n"` and sets the flag. -/
theorem set_val_spec_witness :
    ui_set_val ⟨.bool, "y", 2, [0, 2]⟩ ⟨false, 0, []⟩ (.tri 2) =
      ⟨false, 0, []⟩ ∧
    ui_set_val ⟨.bool, "y", 2, [0, 2]⟩ ⟨false, 0, []⟩ (.tri 0) =
      ⟨true, 1, [UIVal.str "n"]⟩ :=
  ⟨(set_val_spec ⟨.bool, "y", 2, [0, 2]⟩ ⟨false, 0, []⟩ (.tri 2)).1 rfl,
   (set_val_spec ⟨.bool, "y", 2, [0, 2]⟩ ⟨false, 0, []⟩ (.tri 0)).2
     (by decide)⟩

/-- Counterexample to C9 as stated: a y-mode choice symbol can have
`.assignable = (2,)` while its tri-value is 0 and its string value `"n"`;
toggling it is not a no-op — `_change_node` assigns `y`, calls
`set_value` and marks the configuration changed (the code comment at
`menuconfig.py:1595` states this special case explicitly). -/
theorem pinned_noop_counterexample :
    change_node ⟨.bool, "n", 0, [2]⟩ ⟨false, 0, []⟩ =
      ⟨true, 1, [UIVal.str "y"]⟩ ∧
    change_node ⟨.bool, "n", 0, [2]⟩ ⟨false, 0, []⟩ ≠ ⟨false, 0, []⟩ := by
  decide

/-- C9 (amended): for a symbol whose assignable set contains exactly one
value, the UI toggle assigns exactly that single value; when the symbol's
current value already equals it (the ordinary pinned case) the toggle is
a no-op that leaves all state unchanged — but a y-mode choice symbol with
current value n and assignable `(y,)` is set to `y` instead. -/
theorem pinned_spec (sc : SCView) (st : MenuState) (v : Nat)
    (h : sc.assignable = [v]) :
    change_node sc st = ui_set_val sc st (.tri v) ∧
    (v ≤ 2 → TRI_TO_STR v = sc.strValue → change_node sc st = st) := by
  have hlen : sc.assignable.length = 1 := by rw [h]; rfl
  have hhead : sc.assignable.headD 0 = v := by rw [h]; rfl
  constructor
  · unfold change_node
    rw [if_pos hlen, hhead]
  · intro hv hstr
    unfold change_node
    rw [if_pos hlen, hhead]
    unfold ui_set_val
    have : normUI (.tri v) = .str sc.strValue := by
      unfold normUI
      simp only []
      rw [if_pos hv, hstr]
    rw [this]
    simp [uiValNe]

/-- Witness for C9: a bool symbol pinned to `y` (assignable exactly
`(2,)`, current value `"y"`) is left untouched by the toggle. -/
theorem pinned_spec_witness :
    change_node ⟨.bool, "y", 2, [2]⟩ ⟨false, 0, []⟩ =
      ui_set_val ⟨.bool, "y", 2, [2]⟩ ⟨false, 0, []⟩ (.tri 2) ∧
    change_node ⟨.bool, "y", 2, [2]⟩ ⟨false, 0, []⟩ = ⟨false, 0, []⟩ :=
  ⟨(pinned_spec ⟨.bool, "y", 2, [2]⟩ ⟨false, 0, []⟩ 2 rfl).1,
   (pinned_spec ⟨.bool, "y", 2, [2]⟩ ⟨false, 0, []⟩ 2 rfl).2
     (by decide) rfl⟩

end Kconfiglib
